import Mathlib

set_option maxHeartbeats 1000000

/-!
Verification of the agentic-rag retrieval pipeline.

This file gives a shallow embedding of the core retrieval-pipeline code
(`text_processing.py`, `embeddings_client.py`, `vector_search.py`) and proves
the specification claims about it.  Python strings are modelled as `List Char`
(`str.strip` is modelled on the ASCII whitespace characters), Python ints as
`Nat`, floats carried by the remote services as `ℚ`, and remote calls as
explicit outcome oracles.
-/

/-- A chunk of extracted text with position metadata
(`text_processing.TextChunk`). -/
structure TextChunk where
  text : List Char
  index : Nat
  start_char : Nat
  end_char : Nat
deriving Repr, DecidableEq

/-- The ASCII whitespace characters removed by Python `str.strip()`. -/
def pyWhitespace (c : Char) : Bool :=
  c == ' ' || c == '\t' || c == '\n' || c == '\r' || c == '\x0b' || c == '\x0c'

/-- Python `str.strip()`: drop leading and trailing whitespace. -/
def pyStrip (l : List Char) : List Char :=
  ((l.dropWhile pyWhitespace).reverse.dropWhile pyWhitespace).reverse

/-- Python `str.rfind` restricted to a search counter: try offsets
`n, n-1, …, 0` and return the first (i.e. highest) offset at which `pat`
occurs as a substring. -/
def rfindAux (pat s : List Char) : Nat → Option Nat
  | 0 => if pat.isPrefixOf s then some 0 else none
  | n + 1 => if pat.isPrefixOf (s.drop (n + 1)) then some (n + 1) else rfindAux pat s n

/-- Python `s.rfind(pat)`: the highest offset at which `pat` occurs in `s`,
`none` standing for Python's `-1`. -/
def rfind (s pat : List Char) : Option Nat :=
  if pat.length ≤ s.length then rfindAux pat s (s.length - pat.length) else none

/-- The separators tried in priority order by `_find_break_point`: the six
separators of its `for` loop followed by the final bare-space probe (the
Python code returns `idx + 1` for the space, which equals
`idx + len(" ")`, so the space probe is the same rule with a
one-character separator). -/
def sepPriority : List (List Char) :=
  [['\n', '\n'], ['\n'], ['.', ' '], ['!', ' '], ['?', ' '], [';', ' '], [' ']]

/-- The `for separator in [...]` loop of `_find_break_point`: return the
`rfind` offset and separator length for the first separator that occurs. -/
def findSepBreak (s : List Char) : List (List Char) → Option (Nat × Nat)
  | [] => none
  | sep :: rest =>
    match rfind s sep with
    | some idx => some (idx, sep.length)
    | none => findSepBreak s rest

/-- `search_start = max(start + 1, end - 200)` of `_find_break_point`. -/
def searchStartOf (s e : Nat) : Nat := max (s + 1) (e - 200)

/-- `search_text = text[search_start:end]` of `_find_break_point`. -/
def searchTextOf (text : List Char) (s e : Nat) : List Char :=
  (text.drop (searchStartOf s e)).take (e - searchStartOf s e)

/-- `_find_break_point(text, start, end)`: the best break point near `e`,
preferring natural boundaries. -/
def find_break_point (text : List Char) (s e : Nat) : Nat :=
  match findSepBreak (searchTextOf text s e) sepPriority with
  | some (idx, L) => searchStartOf s e + idx + L
  | none => e

/-- The window end chosen by one iteration of the `chunk_text` loop:
`end = min(start + chunk_size, len(text))`, refined by `_find_break_point`
when the window does not reach the end of the text. -/
def windowEnd (text : List Char) (chunk_size start : Nat) : Nat :=
  if min (start + chunk_size) text.length < text.length then
    find_break_point text start (min (start + chunk_size) text.length)
  else min (start + chunk_size) text.length

/-- `next_start = end - chunk_overlap`, forced to `end` whenever that would
not advance past the previous `start` (the termination guard of
`chunk_text`). -/
def nextStartOf (chunk_overlap start e : Nat) : Nat :=
  if e - chunk_overlap ≤ start then e else e - chunk_overlap

/-- The `while start < len(text)` loop of `chunk_text`, with an explicit
iteration budget `fuel`; `none` means the budget was exhausted while the
loop condition still held.  Each iteration emits the stripped window slice
when it is non-empty and advances `start` to `nextStartOf`. -/
def chunkLoop (text : List Char) (chunk_size chunk_overlap : Nat) :
    (fuel start index : Nat) → Option (List TextChunk)
  | 0, start, _ => if start < text.length then none else some []
  | fuel + 1, start, index =>
    if start < text.length then
      if pyStrip ((text.drop start).take (windowEnd text chunk_size start - start)) = [] then
        chunkLoop text chunk_size chunk_overlap fuel
          (nextStartOf chunk_overlap start (windowEnd text chunk_size start)) index
      else
        (chunkLoop text chunk_size chunk_overlap fuel
            (nextStartOf chunk_overlap start (windowEnd text chunk_size start)) (index + 1)).map
          (fun rest =>
            { text := pyStrip ((text.drop start).take (windowEnd text chunk_size start - start)),
              index := index, start_char := start,
              end_char := windowEnd text chunk_size start } :: rest)
    else some []

/-- `chunk_text(text, chunk_size, chunk_overlap)`: split text into
overlapping chunks, preferring sentence boundaries.  The loop is run with
an iteration budget of `len(text)`; claim C1 proves this budget is never
exhausted when `chunk_size ≥ 1`. -/
def chunk_text (text : List Char) (chunk_size chunk_overlap : Nat) :
    Option (List TextChunk) :=
  if text = [] then some []
  else if text.length ≤ chunk_size then
    some [{ text := text, index := 0, start_char := 0, end_char := text.length }]
  else chunkLoop text chunk_size chunk_overlap text.length 0 0

lemma rfindAux_le {pat s : List Char} : ∀ {n i : Nat}, rfindAux pat s n = some i → i ≤ n := by
  intro n
  induction n with
  | zero =>
    intro i h
    unfold rfindAux at h
    split at h
    · exact (Option.some_inj.mp h) ▸ Nat.le_refl 0
    · exact absurd h (by simp)
  | succ n ih =>
    intro i h
    unfold rfindAux at h
    split at h
    · exact (Option.some_inj.mp h) ▸ Nat.le_refl _
    · exact Nat.le_succ_of_le (ih h)

lemma rfind_bound {s pat : List Char} {i : Nat} (h : rfind s pat = some i) :
    i + pat.length ≤ s.length := by
  unfold rfind at h
  split at h
  · have := rfindAux_le h
    omega
  · exact absurd h (by simp)

lemma sepPriority_len : ∀ sep ∈ sepPriority, 1 ≤ sep.length := by decide

lemma findSepBreak_some {s : List Char} {idx L : Nat} :
    ∀ {seps : List (List Char)}, findSepBreak s seps = some (idx, L) →
      ∃ sep ∈ seps, sep.length = L ∧ rfind s sep = some idx := by
  intro seps
  induction seps with
  | nil => intro h; exact absurd h (by simp [findSepBreak])
  | cons sep rest ih =>
    intro h
    unfold findSepBreak at h
    cases hr : rfind s sep with
    | some j =>
      rw [hr] at h
      have hinj := Option.some_inj.mp h
      have h1 : j = idx := congrArg Prod.fst hinj
      have h2 : sep.length = L := congrArg Prod.snd hinj
      exact ⟨sep, List.mem_cons_self _ _, h2, h1 ▸ hr⟩
    | none =>
      rw [hr] at h
      obtain ⟨t, ht, hlen, hf⟩ := ih h
      exact ⟨t, List.mem_cons_of_mem _ ht, hlen, hf⟩

lemma find_break_point_gt {text : List Char} {s e : Nat} (h : s < e) :
    s < find_break_point text s e := by
  unfold find_break_point
  split
  · have hss : s + 1 ≤ searchStartOf s e := le_max_left _ _
    omega
  · exact h

lemma find_break_point_le {text : List Char} {s e : Nat} :
    find_break_point text s e ≤ e := by
  unfold find_break_point
  split
  · rename_i idx L heq
    obtain ⟨sep, hmem, hlen, hf⟩ := findSepBreak_some heq
    have hb : idx + sep.length ≤ (searchTextOf text s e).length := rfind_bound hf
    have h1 : 1 ≤ sep.length := sepPriority_len sep hmem
    have hst : (searchTextOf text s e).length ≤ e - searchStartOf s e := by
      unfold searchTextOf
      simp [List.length_take]
    omega
  · exact Nat.le_refl e

lemma windowEnd_gt {text : List Char} {chunk_size start : Nat}
    (hcs : 1 ≤ chunk_size) (hs : start < text.length) :
    start < windowEnd text chunk_size start := by
  unfold windowEnd
  split
  · exact find_break_point_gt (by omega)
  · omega

lemma windowEnd_le {text : List Char} {chunk_size start : Nat} :
    windowEnd text chunk_size start ≤ text.length := by
  unfold windowEnd
  split
  · exact le_trans find_break_point_le (min_le_right _ _)
  · exact min_le_right _ _

lemma nextStartOf_gt {chunk_overlap start e : Nat} (h : start < e) :
    start < nextStartOf chunk_overlap start e := by
  unfold nextStartOf
  split <;> omega

lemma chunkLoop_isSome (text : List Char) (cs co : Nat) (hcs : 1 ≤ cs) :
    ∀ fuel start index, text.length ≤ fuel + start →
      (chunkLoop text cs co fuel start index).isSome := by
  intro fuel
  induction fuel with
  | zero =>
    intro start index h
    have : ¬ start < text.length := by omega
    simp [chunkLoop, this]
  | succ fuel ih =>
    intro start index h
    by_cases hs : start < text.length
    · have hws : start < windowEnd text cs start := windowEnd_gt hcs hs
      have hns : start < nextStartOf co start (windowEnd text cs start) := nextStartOf_gt hws
      have hfuel : text.length ≤ fuel + nextStartOf co start (windowEnd text cs start) := by omega
      unfold chunkLoop
      rw [if_pos hs]
      split
      · exact ih _ index hfuel
      · have hrec := ih (nextStartOf co start (windowEnd text cs start)) (index + 1) hfuel
        cases hcl : chunkLoop text cs co fuel (nextStartOf co start (windowEnd text cs start))
            (index + 1) with
        | none => rw [hcl] at hrec; exact absurd hrec (by simp)
        | some l => rfl
    · simp [chunkLoop, hs]

/-- Claim C1: segmentation terminates for every text and every configuration
with `chunk_size ≥ 1` and `chunk_overlap ≥ 0`, including configurations with
`chunk_overlap ≥ chunk_size`: on each loop iteration the window start
strictly increases, so an iteration budget of `len(text)` always suffices
and `chunk_text` (whose loop is run with exactly that budget) returns a
result. -/
theorem chunk_text_terminates (text : List Char) (chunk_size chunk_overlap : Nat)
    (hcs : 1 ≤ chunk_size) :
    (chunk_text text chunk_size chunk_overlap).isSome := by
  unfold chunk_text
  split
  · rfl
  · split
    · rfl
    · exact chunkLoop_isSome text chunk_size chunk_overlap hcs text.length 0 0 (by omega)

/-- Witness for C1 at a concrete input, with a configuration violating
`chunk_overlap < chunk_size` (overlap 3 ≥ size 1). -/
theorem chunk_text_terminates_witness :
    1 ≤ 1 ∧ (chunk_text ['a', 'b', ' ', 'c'] 1 3).isSome :=
  ⟨by decide, chunk_text_terminates ['a', 'b', ' ', 'c'] 1 3 (by decide)⟩

lemma chunkLoop_inv (text : List Char) (cs co : Nat) (hcs : 1 ≤ cs) :
    ∀ fuel start index l, chunkLoop text cs co fuel start index = some l →
      l.map TextChunk.index = List.range' index l.length ∧
      (∀ c ∈ l, start ≤ c.start_char) ∧
      List.Pairwise (fun a b => a.start_char < b.start_char) l ∧
      (∀ c ∈ l, c.start_char < c.end_char ∧ c.end_char ≤ text.length ∧
        c.text = pyStrip ((text.drop c.start_char).take (c.end_char - c.start_char)) ∧
        c.text ≠ []) := by
  intro fuel
  induction fuel with
  | zero =>
    intro start index l h
    unfold chunkLoop at h
    split at h
    · exact absurd h (by simp)
    · have hl : l = [] := (Option.some_inj.mp h).symm
      subst hl
      simp
  | succ fuel ih =>
    intro start index l h
    unfold chunkLoop at h
    split at h
    · rename_i hs
      have hwe : start < windowEnd text cs start := windowEnd_gt hcs hs
      have hns : start < nextStartOf co start (windowEnd text cs start) := nextStartOf_gt hwe
      split at h
      · obtain ⟨h1, h2, h3, h4⟩ := ih _ _ _ h
        exact ⟨h1, fun c hc => le_trans (by omega) (h2 c hc), h3, h4⟩
      · rename_i hne
        cases hcl : chunkLoop text cs co fuel
            (nextStartOf co start (windowEnd text cs start)) (index + 1) with
        | none => rw [hcl] at h; exact absurd h (by simp)
        | some rest =>
          rw [hcl] at h
          simp only [Option.map_some'] at h
          have hl := Option.some_inj.mp h
          subst hl
          obtain ⟨h1, h2, h3, h4⟩ := ih _ _ _ hcl
          refine ⟨?_, ?_, ?_, ?_⟩
          · simp only [List.map_cons, List.length_cons, List.range'_succ]
            rw [h1]
          · intro c hc
            rcases List.mem_cons.mp hc with hc | hc
            · subst hc; exact Nat.le_refl _
            · exact le_trans (by omega) (h2 c hc)
          · refine List.pairwise_cons.mpr ⟨fun c hc => ?_, h3⟩
            exact lt_of_lt_of_le hns (h2 c hc)
          · intro c hc
            rcases List.mem_cons.mp hc with hc | hc
            · subst hc
              exact ⟨hwe, windowEnd_le, rfl, hne⟩
            · exact h4 c hc
    · have hl : l = [] := (Option.some_inj.mp h).symm
      subst hl
      simp

/-- Claim C2, counterexample to the claim as stated: for the whitespace-only
text `" "` with `chunk_size = 2` and `chunk_overlap = 0` (a configuration
with `0 ≤ overlap < size`), `chunk_text` takes the `len(text) ≤ chunk_size`
shortcut and returns the single chunk untrimmed, so the chunk's text is not
the whitespace trim of the slice `text[0:1]` (and is empty after that
trim). -/
theorem chunk_text_untrimmed_single_cex :
    (0 : Nat) ≤ 0 ∧ 0 < 2 ∧
    chunk_text [' '] 2 0 = some [{ text := [' '], index := 0, start_char := 0, end_char := 1 }] ∧
    [' '] ≠ pyStrip ((List.drop 0 [' ']).take (1 - 0)) ∧
    pyStrip ((List.drop 0 [' ']).take (1 - 0)) = [] := by decide

/-- Claim C2 (amended): for every text and configuration with
`0 ≤ chunk_overlap < chunk_size`, the chunk list returned by segmentation is
well-formed: indices are exactly `0..n-1` in emission order, start offsets
are strictly increasing, and every chunk satisfies
`0 ≤ startOffset < endOffset ≤ len(text)`.  When `len(text) > chunk_size`
(the sliding-window path), every chunk's text additionally equals the
whitespace trim of the untrimmed slice `text[startOffset:endOffset]` and is
non-empty after that trim; when `0 < len(text) ≤ chunk_size` the single
returned chunk instead carries the whole untrimmed text. -/
theorem chunk_text_wellformed (text : List Char) (chunk_size chunk_overlap : Nat)
    (hco : chunk_overlap < chunk_size) (l : List TextChunk)
    (h : chunk_text text chunk_size chunk_overlap = some l) :
    l.map TextChunk.index = List.range l.length ∧
    List.Pairwise (fun a b => a.start_char < b.start_char) l ∧
    (∀ c ∈ l, c.start_char < c.end_char ∧ c.end_char ≤ text.length) ∧
    (chunk_size < text.length → ∀ c ∈ l,
      c.text = pyStrip ((text.drop c.start_char).take (c.end_char - c.start_char)) ∧
      c.text ≠ []) ∧
    (text ≠ [] → text.length ≤ chunk_size →
      l = [{ text := text, index := 0, start_char := 0, end_char := text.length }]) := by
  unfold chunk_text at h
  split at h
  · rename_i hnil
    have hl : l = [] := (Option.some_inj.mp h).symm
    subst hl
    subst hnil
    simp
  · rename_i hnil
    split at h
    · rename_i hshort
      have hl := (Option.some_inj.mp h).symm
      subst hl
      have hpos : 0 < text.length := List.length_pos.mpr hnil
      refine ⟨by simp; decide, by simp, ?_, by omega, fun _ _ => rfl⟩
      intro c hc
      rcases List.mem_singleton.mp hc with hc
      subst hc
      exact ⟨hpos, Nat.le_refl _⟩
    · rename_i hlong
      obtain ⟨h1, _, h3, h4⟩ := chunkLoop_inv text chunk_size chunk_overlap (by omega) _ _ _ _ h
      refine ⟨by simpa [List.range_eq_range'] using h1, h3, ?_, ?_, by omega⟩
      · intro c hc
        exact ⟨(h4 c hc).1, (h4 c hc).2.1⟩
      · intro _ c hc
        exact ⟨(h4 c hc).2.2.1, (h4 c hc).2.2.2⟩

/-- Sample text for the C2 witness. -/
def c2SampleText : List Char := "ab cd ef gh".toList

/-- The chunks `chunk_text` produces on `c2SampleText` with size 4,
overlap 1. -/
def c2SampleChunks : List TextChunk :=
  [{ text := ['a', 'b'], index := 0, start_char := 0, end_char := 3 },
   { text := ['c', 'd'], index := 1, start_char := 2, end_char := 6 },
   { text := ['e', 'f'], index := 2, start_char := 5, end_char := 9 },
   { text := ['g', 'h'], index := 3, start_char := 8, end_char := 11 },
   { text := ['h'], index := 4, start_char := 10, end_char := 11 }]

/-- Witness for amended C2 at a concrete input. -/
theorem chunk_text_wellformed_witness :
    1 < 4 ∧ chunk_text c2SampleText 4 1 = some c2SampleChunks ∧
    (c2SampleChunks.map TextChunk.index = List.range c2SampleChunks.length ∧
     List.Pairwise (fun a b => a.start_char < b.start_char) c2SampleChunks ∧
     (∀ c ∈ c2SampleChunks, c.start_char < c.end_char ∧ c.end_char ≤ c2SampleText.length) ∧
     (4 < c2SampleText.length → ∀ c ∈ c2SampleChunks,
       c.text = pyStrip ((c2SampleText.drop c.start_char).take (c.end_char - c.start_char)) ∧
       c.text ≠ []) ∧
     (c2SampleText ≠ [] → c2SampleText.length ≤ 4 →
       c2SampleChunks = [{ text := c2SampleText, index := 0, start_char := 0,
                           end_char := c2SampleText.length }])) :=
  ⟨by decide, by decide, chunk_text_wellformed c2SampleText 4 1 (by decide) c2SampleChunks (by decide)⟩

/-- `VECTORS_PER_BATCH = 500`, the S3 Vectors API batch limit. -/
def VECTORS_PER_BATCH : Nat := 500

/-- `METADATA_TEXT_MAX_CHARS = 500`, the metadata text-preview cap. -/
def METADATA_TEXT_MAX_CHARS : Nat := 500

/-- The `for batch_start in range(0, len(l), VECTORS_PER_BATCH)` slicing:
successive slices of at most 500 elements. -/
def batchesOf {α : Type} : List α → List (List α)
  | [] => []
  | a :: l =>
    ((a :: l).take VECTORS_PER_BATCH) :: batchesOf ((a :: l).drop VECTORS_PER_BATCH)
termination_by l => l.length
decreasing_by
  simp only [List.length_drop]
  exact Nat.sub_lt (by simp) (by decide)

/-- Metadata text preview of `store_document_vectors`: `text[:500]`, with
`"..."` appended when the text was cut. -/
def truncateMeta (t : List Char) : List Char :=
  if METADATA_TEXT_MAX_CHARS < t.length then
    t.take METADATA_TEXT_MAX_CHARS ++ "...".toList
  else t.take METADATA_TEXT_MAX_CHARS

/-- The vector record key `f"{document_id}#{i}"`. -/
def vkey (document_id : List Char) (i : Nat) : List Char :=
  document_id ++ ['#'] ++ (toString i).toList

/-- One S3 Vectors record as built by `store_document_vectors`; `α` is the
embedding-vector payload (`data.float32`), and the `md_` fields are the
metadata dictionary. -/
structure VRecord (α : Type) where
  key : List Char
  data : α
  md_document_id : List Char
  md_document_filename : List Char
  md_chunk_index : Nat
  md_chunk_text : List Char
deriving Repr

/-- The record list built by the
`for i, (text, embedding) in enumerate(zip(chunk_texts, embeddings))` loop
of `store_document_vectors`. -/
def buildVectors {α : Type} (document_id document_filename : List Char)
    (chunk_texts : List (List Char)) (embeddings : List α) : List (VRecord α) :=
  (chunk_texts.zip embeddings).enum.map fun p =>
    { key := vkey document_id p.1, data := p.2.2,
      md_document_id := document_id, md_document_filename := document_filename,
      md_chunk_index := p.1, md_chunk_text := truncateMeta p.2.1 }

/-- The batch loop of `store_document_vectors`: each `put_vectors` call adds
the batch's keys to the index state and `stored_count` grows by the batch
length.  (A failing batch raises out of the function, so the successful run
is the only one with a meaningful return value.) -/
def storeGo {α : Type} : List (List (VRecord α)) → Finset (List Char) → Nat →
    Finset (List Char) × Nat
  | [], st, c => (st, c)
  | b :: bs, st, c => storeGo bs (st ∪ (b.map VRecord.key).toFinset) (c + b.length)

/-- `store_document_vectors(document_id, document_filename, chunk_texts,
embeddings)` acting on an index state `st` (the set of stored record keys);
returns the new state and `stored_count`. -/
def store_document_vectors {α : Type} (document_id document_filename : List Char)
    (chunk_texts : List (List Char)) (embeddings : List α)
    (st : Finset (List Char)) : Finset (List Char) × Nat :=
  storeGo (batchesOf (buildVectors document_id document_filename chunk_texts embeddings)) st 0

/-- The batch loop of `delete_document_vectors`; `ok bi` tells whether the
`delete_vectors` call for the batch at batch index `bi` succeeds.  A failing
batch's `ClientError` is caught and logged: its keys are neither removed nor
counted, and the loop continues with the remaining batches. -/
def deleteGo (ok : Nat → Bool) : Nat → List (List (List Char)) → Finset (List Char) → Nat →
    Finset (List Char) × Nat
  | _, [], st, c => (st, c)
  | bi, b :: bs, st, c =>
    if ok bi then deleteGo ok (bi + 1) bs (st \ b.toFinset) (c + b.length)
    else deleteGo ok (bi + 1) bs st c

/-- `delete_document_vectors(document_id, chunk_count)` acting on an index
state `st`: regenerates the key set from the key pattern alone and deletes
it in batches, returning the new state and `deleted_count`. -/
def delete_document_vectors (ok : Nat → Bool) (document_id : List Char) (chunk_count : Nat)
    (st : Finset (List Char)) : Finset (List Char) × Nat :=
  deleteGo ok 0 (batchesOf ((List.range chunk_count).map (vkey document_id))) st 0

lemma batchesOf_flatten {α : Type} (l : List α) : (batchesOf l).flatten = l := by
  induction l using batchesOf.induct with
  | case1 => rw [batchesOf]; rfl
  | case2 a l ih =>
    rw [batchesOf]
    simp [ih]

lemma batchesOf_le {α : Type} (l : List α) :
    ∀ b ∈ batchesOf l, b.length ≤ VECTORS_PER_BATCH := by
  induction l using batchesOf.induct with
  | case1 => simp [batchesOf]
  | case2 a l ih =>
    rw [batchesOf]
    intro b hb
    rcases List.mem_cons.mp hb with hb | hb
    · subst hb
      simp [List.length_take]
    · exact ih b hb

lemma storeGo_spec {α : Type} :
    ∀ (bs : List (List (VRecord α))) (st : Finset (List Char)) (c : Nat),
      storeGo bs st c = (st ∪ (bs.flatten.map VRecord.key).toFinset, c + bs.flatten.length) := by
  intro bs
  induction bs with
  | nil => intro st c; simp [storeGo]
  | cons b bs ih =>
    intro st c
    rw [storeGo, ih]
    simp [List.map_append, List.toFinset_append, Finset.union_assoc]
    omega

lemma deleteGo_spec (ok : Nat → Bool) :
    ∀ (bs : List (List (List Char))) (bi : Nat) (st : Finset (List Char)) (c : Nat),
      deleteGo ok bi bs st c =
        (st \ (((bs.enumFrom bi).filter (fun p => ok p.1)).map Prod.snd).flatten.toFinset,
         c + ((((bs.enumFrom bi).filter (fun p => ok p.1)).map Prod.snd).map List.length).sum) := by
  intro bs
  induction bs with
  | nil => intro bi st c; simp [deleteGo, List.enumFrom]
  | cons b bs ih =>
    intro bi st c
    simp only [deleteGo]
    cases hok : ok bi with
    | true =>
      rw [if_pos rfl, ih]
      have hfil : (List.enumFrom bi (b :: bs)).filter (fun p => ok p.1)
          = (bi, b) :: (List.enumFrom (bi + 1) bs).filter (fun p => ok p.1) := by
        simp [List.enumFrom, List.filter, hok]
      rw [hfil]
      simp only [List.map_cons, List.flatten_cons, List.toFinset_append, List.sum_cons,
        Prod.mk.injEq]
      exact ⟨by rw [sdiff_sdiff_left, Finset.sup_eq_union], by omega⟩
    | false =>
      rw [if_neg (by simp [hok]), ih]
      have hfil : (List.enumFrom bi (b :: bs)).filter (fun p => ok p.1)
          = (List.enumFrom (bi + 1) bs).filter (fun p => ok p.1) := by
        simp [List.enumFrom, List.filter, hok]
      rw [hfil]

lemma enumFrom_fst {α : Type} :
    ∀ (l : List α) (n : Nat), (l.enumFrom n).map Prod.fst = List.range' n l.length := by
  intro l
  induction l with
  | nil => intro n; simp [List.enumFrom]
  | cons a l ih => intro n; simp [List.enumFrom, List.range'_succ, ih]

lemma enumFrom_snd {α : Type} :
    ∀ (l : List α) (n : Nat), (l.enumFrom n).map Prod.snd = l := by
  intro l
  induction l with
  | nil => intro n; simp [List.enumFrom]
  | cons a l ih => intro n; simp [List.enumFrom, ih]

lemma buildVectors_keys {α : Type} (d fn : List Char)
    (cts : List (List Char)) (embs : List α) :
    (buildVectors d fn cts embs).map VRecord.key
      = (List.range (min cts.length embs.length)).map (vkey d) := by
  unfold buildVectors
  rw [List.map_map]
  have h1 : (VRecord.key ∘ fun (p : Nat × (List Char × α)) =>
      ({ key := vkey d p.1, data := p.2.2, md_document_id := d, md_document_filename := fn,
         md_chunk_index := p.1, md_chunk_text := truncateMeta p.2.1 } : VRecord α))
      = (vkey d) ∘ Prod.fst := rfl
  rw [h1, ← List.map_map, List.enum, enumFrom_fst, List.length_zip,
    ← List.range_eq_range']

lemma vkey_prefix_marker (d : List Char) (i : Nat) : (d ++ ['#']) <+: vkey d i := by
  rw [vkey]
  exact List.prefix_append _ _

lemma zip_take_min_eq {α β : Type} :
    ∀ (l1 : List α) (l2 : List β),
      (l1.take (min l1.length l2.length)).zip (l2.take (min l1.length l2.length)) = l1.zip l2
  | [], l2 => by simp
  | a :: l1, [] => by simp
  | a :: l1, b :: l2 => by
    have ih := zip_take_min_eq l1 l2
    simp only [List.length_cons, Nat.succ_min_succ, List.take_succ_cons, List.zip_cons_cons]
    rw [ih]

/-- Claim C3: for every `documentId` and chunk-text/embedding lists of equal
length `n`, the record keys written by `store_document_vectors` are exactly
`documentId#i` for `0 ≤ i < n` — the same key list
`delete_document_vectors(documentId, n)` regenerates — every written key
carries the `documentId#` prefix, and storing then deleting with
`chunkCount = n` removes exactly that key set, leaving zero residual
records under the document's key prefix (given the index held none
before). -/
theorem store_then_delete_round_trip {α : Type} (d fn : List Char)
    (cts : List (List Char)) (embs : List α) (n : Nat)
    (h1 : cts.length = n) (h2 : embs.length = n) (st : Finset (List Char))
    (hclean : ∀ k ∈ st, ¬ (d ++ ['#']) <+: k) :
    (buildVectors d fn cts embs).map VRecord.key = (List.range n).map (vkey d) ∧
    (∀ k ∈ (buildVectors d fn cts embs).map VRecord.key, (d ++ ['#']) <+: k) ∧
    (delete_document_vectors (fun _ => true) d n
        (store_document_vectors d fn cts embs st).1).1
      = st \ ((List.range n).map (vkey d)).toFinset ∧
    ∀ k ∈ (delete_document_vectors (fun _ => true) d n
        (store_document_vectors d fn cts embs st).1).1,
      ¬ (d ++ ['#']) <+: k := by
  have hkeys : (buildVectors d fn cts embs).map VRecord.key = (List.range n).map (vkey d) := by
    rw [buildVectors_keys, h1, h2, Nat.min_self]
  have hstore : (store_document_vectors d fn cts embs st).1
      = st ∪ ((List.range n).map (vkey d)).toFinset := by
    unfold store_document_vectors
    rw [storeGo_spec, batchesOf_flatten, hkeys]
  have hdel : ∀ st' : Finset (List Char),
      (delete_document_vectors (fun _ => true) d n st').1
        = st' \ ((List.range n).map (vkey d)).toFinset := by
    intro st'
    unfold delete_document_vectors
    rw [deleteGo_spec]
    simp [enumFrom_snd, batchesOf_flatten]
  have hfinal : (delete_document_vectors (fun _ => true) d n
      (store_document_vectors d fn cts embs st).1).1
      = st \ ((List.range n).map (vkey d)).toFinset := by
    rw [hdel, hstore]
    ext k
    simp only [Finset.mem_sdiff, Finset.mem_union]
    tauto
  refine ⟨hkeys, ?_, hfinal, ?_⟩
  · intro k hk
    rw [hkeys] at hk
    obtain ⟨i, _, hi⟩ := List.mem_map.mp hk
    exact hi ▸ vkey_prefix_marker d i
  · intro k hk
    rw [hfinal] at hk
    exact hclean k (Finset.mem_sdiff.mp hk).1

/-- Witness for C3 at a concrete input: document id `"d"`, two chunks, an
initial index containing one foreign key. -/
theorem store_then_delete_round_trip_witness :
    (buildVectors ['d'] ['f'] [['x'], ['y']] [true, false]).map VRecord.key
        = (List.range 2).map (vkey ['d']) ∧
    (∀ k ∈ (buildVectors ['d'] ['f'] [['x'], ['y']] [true, false]).map VRecord.key,
      (['d'] ++ ['#']) <+: k) ∧
    (delete_document_vectors (fun _ => true) ['d'] 2
        (store_document_vectors ['d'] ['f'] [['x'], ['y']] [true, false] {['q']}).1).1
      = {['q']} \ ((List.range 2).map (vkey ['d'])).toFinset ∧
    ∀ k ∈ (delete_document_vectors (fun _ => true) ['d'] 2
        (store_document_vectors ['d'] ['f'] [['x'], ['y']] [true, false] {['q']}).1).1,
      ¬ (['d'] ++ ['#']) <+: k :=
  store_then_delete_round_trip ['d'] ['f'] [['x'], ['y']] [true, false] 2
    (by decide) (by decide) {['q']} (by decide)

/-- Claim C6: `delete_document_vectors` regenerates exactly the `chunkCount`
keys `documentId#0 .. documentId#(chunkCount-1)` from the key pattern alone
(the key list and the returned count are independent of the index state),
submits them in batches of at most 500 keys, and is best-effort: the loop
visits every batch whatever `ok` says, a failing batch's keys are neither
removed nor counted, and the returned `deleted_count` is the total number of
keys in the batches that succeeded.  (The `ClientError` of a failing batch
is caught inside the loop, so no batch failure propagates to the caller —
the function is modelled as total.) -/
theorem delete_document_vectors_best_effort (ok : Nat → Bool) (d : List Char)
    (chunk_count : Nat) (st : Finset (List Char)) :
    (batchesOf ((List.range chunk_count).map (vkey d))).flatten
        = (List.range chunk_count).map (vkey d) ∧
    ((List.range chunk_count).map (vkey d)).length = chunk_count ∧
    (∀ b ∈ batchesOf ((List.range chunk_count).map (vkey d)),
      b.length ≤ VECTORS_PER_BATCH) ∧
    (delete_document_vectors ok d chunk_count st).2 =
      (((((batchesOf ((List.range chunk_count).map (vkey d))).enumFrom 0).filter
          (fun p => ok p.1)).map Prod.snd).map List.length).sum ∧
    (delete_document_vectors ok d chunk_count st).1 =
      st \ ((((batchesOf ((List.range chunk_count).map (vkey d))).enumFrom 0).filter
          (fun p => ok p.1)).map Prod.snd).flatten.toFinset ∧
    ∀ st₂ : Finset (List Char),
      (delete_document_vectors ok d chunk_count st₂).2 =
        (delete_document_vectors ok d chunk_count st).2 := by
  refine ⟨batchesOf_flatten _, by simp, batchesOf_le _, ?_, ?_, ?_⟩
  · unfold delete_document_vectors
    rw [deleteGo_spec]
    simp
  · unfold delete_document_vectors
    rw [deleteGo_spec]
  · intro st₂
    unfold delete_document_vectors
    rw [deleteGo_spec, deleteGo_spec]

/-- Claim C10: when `len(chunk_texts)` differs from `len(embeddings)`,
`store_document_vectors` raises no error: `zip` silently stops at the
shorter list, so records are built only for the first
`min(len(chunk_texts), len(embeddings))` index pairs and the returned
`stored_count` equals that minimum. -/
theorem store_document_vectors_zip_min {α : Type} (d fn : List Char)
    (cts : List (List Char)) (embs : List α) (st : Finset (List Char)) :
    (store_document_vectors d fn cts embs st).2 = min cts.length embs.length ∧
    (buildVectors d fn cts embs).length = min cts.length embs.length ∧
    buildVectors d fn cts embs =
      buildVectors d fn (cts.take (min cts.length embs.length))
        (embs.take (min cts.length embs.length)) := by
  have hlen : (buildVectors d fn cts embs).length = min cts.length embs.length := by
    unfold buildVectors
    simp [List.enum, List.length_zip]
  refine ⟨?_, hlen, ?_⟩
  · unfold store_document_vectors
    rw [storeGo_spec, batchesOf_flatten]
    simpa using hlen
  · unfold buildVectors
    rw [zip_take_min_eq]

/-- `MAX_RETRIES = 5`. -/
def MAX_RETRIES : Nat := 5

/-- `EMBEDDING_INPUT_LIMIT_CHARS = 30_000`. -/
def EMBEDDING_INPUT_LIMIT_CHARS : Nat := 30000

/-- A `botocore` `ClientError`, identified by its error code
(`e.response["Error"]["Code"]`). -/
structure ClientError where
  code : List Char
deriving Repr, DecidableEq

/-- The rate-limit test of `generate_embedding_vector`:
`error_code in ("ThrottlingException", "TooManyRequestsException")`. -/
def isRateLimit (e : ClientError) : Bool :=
  e.code == "ThrottlingException".toList || e.code == "TooManyRequestsException".toList

/-- Whether a call outcome is a rate-limited failure. -/
def rateLimitedOutcome {α : Type} : Except ClientError α → Bool
  | .error e => isRateLimit e
  | .ok _ => false

/-- The truncation `generate_embedding_vector` applies before submission:
`text = text[:EMBEDDING_INPUT_LIMIT_CHARS]` when the input is longer
(lossy, logged, not an error). -/
def truncateForEmbedding (text : List Char) : List Char :=
  if EMBEDDING_INPUT_LIMIT_CHARS < text.length then text.take EMBEDDING_INPUT_LIMIT_CHARS
  else text

/-- The backoff wait before the retry that follows `attempt`:
`min(2 ** attempt + random.uniform(0, 1), 30)` seconds, with the random
draw supplied by the `jitter` oracle. -/
def backoffDelay (jitter : Nat → ℚ) (attempt : Nat) : ℚ :=
  min ((2 : ℚ) ^ attempt + jitter attempt) 30

/-- The `for attempt in range(MAX_RETRIES + 1)` loop of
`generate_embedding_vector`.  `call attempt` is the outcome of the
`invoke_model` call on that attempt, `remaining = MAX_RETRIES - attempt`
counts the attempts still allowed (so `remaining > 0` iff
`attempt < MAX_RETRIES`).  A success returns; a rate-limited failure with
retries remaining sleeps `backoffDelay` and retries; any other failure —
or a rate-limited one on the final attempt — is raised.  Returns the final
outcome together with the list of sleeps performed, in order. -/
def genLoop {α : Type} (call : Nat → Except ClientError α) (jitter : Nat → ℚ) :
    (attempt remaining : Nat) → Except ClientError α × List ℚ
  | attempt, 0 =>
    match call attempt with
    | .ok v => (.ok v, [])
    | .error e => (.error e, [])
  | attempt, remaining + 1 =>
    match call attempt with
    | .ok v => (.ok v, [])
    | .error e =>
      if isRateLimit e then
        ((genLoop call jitter (attempt + 1) remaining).1,
         backoffDelay jitter attempt :: (genLoop call jitter (attempt + 1) remaining).2)
      else (.error e, [])

/-- `generate_embedding_vector(text)`: truncate over-long input, then run
the retry loop from attempt 0 with `MAX_RETRIES` retries allowed. -/
def generate_embedding_vector {α : Type} (call : List Char → Nat → Except ClientError α)
    (jitter : Nat → ℚ) (text : List Char) : Except ClientError α × List ℚ :=
  genLoop (call (truncateForEmbedding text)) jitter 0 MAX_RETRIES

lemma genLoop_base {α : Type} (call : Nat → Except ClientError α) (jitter : Nat → ℚ)
    (attempt : Nat) : genLoop call jitter attempt 0 = (call attempt, []) := by
  simp only [genLoop]
  cases call attempt <;> rfl

lemma genLoop_spec {α : Type} (call : Nat → Except ClientError α) (jitter : Nat → ℚ) :
    ∀ (remaining attempt : Nat),
      (∀ k, k ≤ remaining →
        (∀ a, attempt ≤ a → a < attempt + k → rateLimitedOutcome (call a) = true) →
        rateLimitedOutcome (call (attempt + k)) = false →
        genLoop call jitter attempt remaining =
          (call (attempt + k), (List.range k).map (fun i => backoffDelay jitter (attempt + i)))) ∧
      ((∀ a, attempt ≤ a → a ≤ attempt + remaining → rateLimitedOutcome (call a) = true) →
        genLoop call jitter attempt remaining =
          (call (attempt + remaining),
           (List.range remaining).map (fun i => backoffDelay jitter (attempt + i)))) := by
  intro remaining
  induction remaining with
  | zero =>
    intro attempt
    constructor
    · intro k hk _ _
      have hk0 : k = 0 := by omega
      subst hk0
      simp [genLoop_base]
    · intro _
      simp [genLoop_base]
  | succ remaining ih =>
    intro attempt
    have hshift : ∀ i, attempt + 1 + i = attempt + (i + 1) := fun i => by omega
    constructor
    · intro k hk hall hnot
      cases k with
      | zero =>
        simp only [Nat.add_zero] at hnot ⊢
        simp only [genLoop]
        cases hc : call attempt with
        | ok v => simp
        | error e =>
          rw [hc] at hnot
          simp only [rateLimitedOutcome] at hnot
          simp [hnot]
      | succ k =>
        have hrl : rateLimitedOutcome (call attempt) = true :=
          hall attempt (Nat.le_refl _) (by omega)
        cases hc : call attempt with
        | ok v => rw [hc] at hrl; exact absurd hrl (by simp [rateLimitedOutcome])
        | error e =>
          rw [hc] at hrl
          simp only [rateLimitedOutcome] at hrl
          simp only [genLoop, hc, hrl, if_true]
          have hrec := (ih (attempt + 1)).1 k (by omega)
            (fun a ha1 ha2 => hall a (by omega) (by omega))
            (by rw [hshift k]; exact hnot)
          rw [hrec]
          simp only [hshift]
          rw [List.range_succ_eq_map]
          simp [Function.comp]
    · intro hall
      have hrl : rateLimitedOutcome (call attempt) = true :=
        hall attempt (Nat.le_refl _) (by omega)
      cases hc : call attempt with
      | ok v => rw [hc] at hrl; exact absurd hrl (by simp [rateLimitedOutcome])
      | error e =>
        rw [hc] at hrl
        simp only [rateLimitedOutcome] at hrl
        simp only [genLoop, hc, hrl, if_true]
        have hrec := (ih (attempt + 1)).2
          (fun a ha1 ha2 => hall a (by omega) (by omega))
        rw [hrec]
        simp only [hshift]
        rw [List.range_succ_eq_map]
        simp [Function.comp]

/-- Claim C4: single-text embedding truncates input longer than 30,000
characters to its first 30,000 characters before submission (without
raising); each backoff wait is `min(2 ** attempt + jitter, 30)` seconds with
jitter in `[0, 1)`, so every wait lies in `[1, 30]`; if the first `k`
attempts (`k ≤ 5`) are rate-limited and attempt `k` is not, the outcome of
attempt `k` (success, or a non-rate-limit failure raised immediately
without further retry) is returned after exactly the `k` backoff waits of
attempts `0..k-1`; and if all six attempts are rate-limited, the
rate-limited failure of the last attempt is raised after the five backoff
waits. -/
theorem generate_embedding_retry_policy {α : Type} (text : List Char)
    (call : List Char → Nat → Except ClientError α) (jitter : Nat → ℚ)
    (hj : ∀ a, 0 ≤ jitter a ∧ jitter a < 1) :
    (EMBEDDING_INPUT_LIMIT_CHARS < text.length →
      truncateForEmbedding text = text.take EMBEDDING_INPUT_LIMIT_CHARS) ∧
    (text.length ≤ EMBEDDING_INPUT_LIMIT_CHARS → truncateForEmbedding text = text) ∧
    (∀ a, 1 ≤ backoffDelay jitter a ∧ backoffDelay jitter a ≤ 30) ∧
    (∀ k, k ≤ MAX_RETRIES →
      (∀ a, a < k → rateLimitedOutcome (call (truncateForEmbedding text) a) = true) →
      rateLimitedOutcome (call (truncateForEmbedding text) k) = false →
      generate_embedding_vector call jitter text =
        (call (truncateForEmbedding text) k, (List.range k).map (backoffDelay jitter))) ∧
    ((∀ a, a ≤ MAX_RETRIES → rateLimitedOutcome (call (truncateForEmbedding text) a) = true) →
      generate_embedding_vector call jitter text =
        (call (truncateForEmbedding text) MAX_RETRIES,
         (List.range MAX_RETRIES).map (backoffDelay jitter))) := by
  refine ⟨?_, ?_, ?_, ?_, ?_⟩
  · intro h
    unfold truncateForEmbedding
    rw [if_pos h]
  · intro h
    unfold truncateForEmbedding
    rw [if_neg (by omega)]
  · intro a
    have hja := hj a
    have hpow : (1 : ℚ) ≤ 2 ^ a := one_le_pow₀ (by norm_num)
    unfold backoffDelay
    constructor
    · exact le_min (by linarith) (by norm_num)
    · exact min_le_right _ _
  · intro k hk hall hnot
    unfold generate_embedding_vector
    have h := (genLoop_spec (call (truncateForEmbedding text)) jitter MAX_RETRIES 0).1 k hk
      (fun a _ ha => hall a (by omega)) (by simpa using hnot)
    rw [h]
    simp
  · intro hall
    unfold generate_embedding_vector
    have h := (genLoop_spec (call (truncateForEmbedding text)) jitter MAX_RETRIES 0).2
      (fun a _ ha => hall a (by omega))
    rw [h]
    simp

/-- Concrete attempt oracle for the C4 witness: two throttled attempts, then
success. -/
def c4Call : List Char → Nat → Except ClientError Nat := fun _ a =>
  if a < 2 then Except.error { code := "ThrottlingException".toList } else Except.ok 7

/-- Witness for C4 at a concrete input: zero jitter, two rate-limited
attempts then success, yielding backoff waits of 1 and 2 seconds. -/
theorem generate_embedding_retry_policy_witness :
    generate_embedding_vector c4Call (fun _ => 0) ['h', 'i'] =
      (Except.ok 7, [1, 2]) := by
  have h := (generate_embedding_retry_policy ['h', 'i'] c4Call (fun _ => 0)
      (fun a => ⟨le_refl 0, by norm_num⟩)).2.2.2.1 2 (by decide) (by decide) (by decide)
  rw [h]
  norm_num [c4Call, backoffDelay, truncateForEmbedding, EMBEDDING_INPUT_LIMIT_CHARS,
    List.range_succ]

/-- The per-text loop of `generate_embeddings_batch`: texts are processed
sequentially in input order, each through `generate_embedding_vector`
(`one i` being the embed call for the text at position `i`); the first
failure propagates immediately, abandoning the rest.  (The
`time.sleep(0.1)` taken every 20 texts is pure I/O throttling with no
effect on the returned value and is not modelled.) -/
def batchGo {α : Type} (one : Nat → List Char → Except ClientError α) :
    Nat → List (List Char) → Except ClientError (List α)
  | _, [] => .ok []
  | i, t :: ts =>
    match one i t with
    | .error e => .error e
    | .ok v =>
      match batchGo one (i + 1) ts with
      | .error e => .error e
      | .ok vs => .ok (v :: vs)

/-- `generate_embeddings_batch(texts)`: embed each text in order through
`generate_embedding_vector`, `svc i` being the attempt oracle of the
`invoke_model` calls for the text at position `i`. -/
def generate_embeddings_batch {α : Type}
    (svc : Nat → List Char → Nat → Except ClientError α) (jitter : Nat → ℚ)
    (texts : List (List Char)) : Except ClientError (List α) :=
  batchGo (fun i t => (generate_embedding_vector (svc i) jitter t).1) 0 texts

lemma batchGo_ok {α : Type} (one : Nat → List Char → Except ClientError α) :
    ∀ (ts : List (List Char)) (i0 : Nat),
      (∀ j (hj : j < ts.length), ∃ v, one (i0 + j) (ts.get ⟨j, hj⟩) = .ok v) →
      ∃ vs, batchGo one i0 ts = .ok vs ∧ vs.length = ts.length ∧
        ∀ j (hj : j < ts.length) (hv : j < vs.length),
          one (i0 + j) (ts.get ⟨j, hj⟩) = .ok (vs.get ⟨j, hv⟩) := by
  intro ts
  induction ts with
  | nil =>
    intro i0 _
    exact ⟨[], rfl, rfl, fun j hj hv => absurd hj (by simp)⟩
  | cons t ts ih =>
    intro i0 hall
    obtain ⟨v, hv⟩ := hall 0 (by simp)
    rw [Nat.add_zero] at hv
    simp only [List.get] at hv
    obtain ⟨vs, hvs, hlen, hidx⟩ := ih (i0 + 1) (fun j hj => by
      have h2 := hall (j + 1) (by simpa using hj)
      have e1 : i0 + (j + 1) = i0 + 1 + j := by omega
      rw [e1] at h2
      simpa using h2)
    refine ⟨v :: vs, ?_, by simpa using hlen, ?_⟩
    · simp only [batchGo, hv, hvs]
    · intro j hj hvlt
      cases j with
      | zero => simpa using hv
      | succ j =>
        have h2 := hidx j (by simpa using hj) (by simpa using hvlt)
        have e1 : i0 + 1 + j = i0 + (j + 1) := by omega
        rw [e1] at h2
        simpa using h2

lemma batchGo_err {α : Type} (one : Nat → List Char → Except ClientError α) :
    ∀ (ts : List (List Char)) (i0 j : Nat) (hj : j < ts.length) (e : ClientError),
      (∀ i (hi : i < ts.length), i < j → ∃ v, one (i0 + i) (ts.get ⟨i, hi⟩) = .ok v) →
      one (i0 + j) (ts.get ⟨j, hj⟩) = .error e →
      batchGo one i0 ts = .error e := by
  intro ts
  induction ts with
  | nil => intro i0 j hj; exact absurd hj (by simp)
  | cons t ts ih =>
    intro i0 j hj e hprev herr
    cases j with
    | zero =>
      rw [Nat.add_zero] at herr
      simp only [List.get] at herr
      simp only [batchGo, herr]
    | succ j =>
      obtain ⟨v, hv⟩ := hprev 0 (by simp) (by omega)
      rw [Nat.add_zero] at hv
      simp only [List.get] at hv
      have e1 : i0 + (j + 1) = i0 + 1 + j := by omega
      rw [e1] at herr
      simp only [List.get] at herr
      have hrec := ih (i0 + 1) j (by simpa using hj) e
        (fun i hi hij => by
          have h2 := hprev (i + 1) (by simpa using hi) (by omega)
          have e2 : i0 + (i + 1) = i0 + 1 + i := by omega
          rw [e2] at h2
          simpa using h2)
        herr
      simp only [batchGo, hv, hrec]

/-- Claim C5: batch embedding processes the texts sequentially in input
order; when every per-text embed (after its own retries) succeeds, it
returns exactly one embedding vector per input text, in the same order; and
if the embed call for position `j` fails while all earlier positions
succeed, the whole batch call fails with that error — no partial vector
list is returned. -/
theorem generate_embeddings_batch_spec {α : Type}
    (svc : Nat → List Char → Nat → Except ClientError α) (jitter : Nat → ℚ)
    (texts : List (List Char)) :
    ((∀ j (hj : j < texts.length), ∃ v,
        (generate_embedding_vector (svc j) jitter (texts.get ⟨j, hj⟩)).1 = Except.ok v) →
      ∃ vs, generate_embeddings_batch svc jitter texts = Except.ok vs ∧
        vs.length = texts.length ∧
        ∀ j (hj : j < texts.length) (hv : j < vs.length),
          (generate_embedding_vector (svc j) jitter (texts.get ⟨j, hj⟩)).1
            = Except.ok (vs.get ⟨j, hv⟩)) ∧
    (∀ j (hj : j < texts.length) (e : ClientError),
      (∀ i (hi : i < texts.length), i < j → ∃ v,
        (generate_embedding_vector (svc i) jitter (texts.get ⟨i, hi⟩)).1 = Except.ok v) →
      (generate_embedding_vector (svc j) jitter (texts.get ⟨j, hj⟩)).1 = Except.error e →
      generate_embeddings_batch svc jitter texts = Except.error e) := by
  constructor
  · intro hall
    obtain ⟨vs, hvs, hlen, hidx⟩ := batchGo_ok
      (fun i t => (generate_embedding_vector (svc i) jitter t).1) texts 0
      (fun j hj => by simpa using hall j hj)
    exact ⟨vs, hvs, hlen, fun j hj hv => by simpa using hidx j hj hv⟩
  · intro j hj e hprev herr
    exact batchGo_err (fun i t => (generate_embedding_vector (svc i) jitter t).1) texts 0 j hj e
      (fun i hi hij => by simpa using hprev i hi hij) (by simpa using herr)

/-- Concrete per-text oracle for the C5 witness: position 0 succeeds at
once, position 1 needs one retry. -/
def c5Svc : Nat → List Char → Nat → Except ClientError Nat := fun i _ a =>
  if i = 1 ∧ a = 0 then Except.error { code := "TooManyRequestsException".toList }
  else Except.ok (10 + i)

/-- Witness for C5 at a concrete input: both texts embed successfully
(the second after one retry), and the batch returns their vectors in input
order. -/
theorem generate_embeddings_batch_spec_witness :
    ∃ vs, generate_embeddings_batch c5Svc (fun _ => 0) [['a'], ['b']] = Except.ok vs ∧
      vs.length = ([['a'], ['b']] : List (List Char)).length ∧
      ∀ j (hj : j < ([['a'], ['b']] : List (List Char)).length) (hv : j < vs.length),
        (generate_embedding_vector (c5Svc j) (fun _ => 0)
          (([['a'], ['b']] : List (List Char)).get ⟨j, hj⟩)).1 = Except.ok (vs.get ⟨j, hv⟩) :=
  (generate_embeddings_batch_spec c5Svc (fun _ => 0) [['a'], ['b']]).1 (by
    intro j hj
    have hj2 : j = 0 ∨ j = 1 := by simp at hj; omega
    rcases hj2 with rfl | rfl
    · exact ⟨10, rfl⟩
    · exact ⟨11, rfl⟩)

/-- One element of the `response["vectors"]` list read by
`search_knowledge_base`, flattened to the fields the code reads:
`vector.get("distance", 0)` and the `metadata.get(...)` lookups, each
`none` when the key is absent (the code then substitutes its default). -/
structure RawMatch where
  distance : Option ℚ
  md_chunk_text : Option (List Char)
  md_document_filename : Option (List Char)
  md_chunk_index : Option Nat
deriving Repr, DecidableEq

/-- Outcome of the remote `query_vectors` call: a vector list, or a
`ClientError`. -/
inductive QueryOutcome where
  | ok (vectors : List RawMatch)
  | clientError (e : ClientError)

/-- The relevance tier (`"High" / "Medium" / "Low"`). -/
inductive Quality where
  | high
  | medium
  | low
deriving Repr, DecidableEq

/-- `similarity = max(0, 1 - distance)`. -/
def similarityOf (distance : ℚ) : ℚ := max 0 (1 - distance)

/-- `"High" if similarity >= 0.7 else "Medium" if similarity >= 0.5 else
"Low"`. -/
def qualityOf (s : ℚ) : Quality :=
  if s ≥ 7/10 then .high else if s ≥ 5/10 then .medium else .low

/-- One formatted result block of `search_knowledge_base` (the fields the
f-string interpolates, in structured form; a missing chunk index is
rendered as `"?"` by the code and kept as `none` here). -/
structure SearchResultItem where
  position : Nat
  quality : Quality
  similarity : ℚ
  filename : List Char
  chunk_index : Option Nat
  chunk_text : List Char
deriving Repr, DecidableEq

/-- The body of the `for i, vector in enumerate(vectors, 1)` loop of
`search_knowledge_base`, building one result block. -/
def formatMatch (i : Nat) (m : RawMatch) : SearchResultItem :=
  { position := i,
    quality := qualityOf (similarityOf (m.distance.getD 0)),
    similarity := similarityOf (m.distance.getD 0),
    filename := m.md_document_filename.getD "Unknown".toList,
    chunk_index := m.md_chunk_index,
    chunk_text := m.md_chunk_text.getD "N/A".toList }

/-- The return value of `search_knowledge_base`: either one of its plain
message strings, or the formatted result blocks (the header plus joined
blocks, kept structured). -/
inductive SearchReply where
  | message (s : List Char)
  | results (items : List SearchResultItem)
deriving Repr, DecidableEq

/-- The literal returned when `query_vectors` raises
`ResourceNotFoundException`. -/
def KB_EMPTY_MSG : List Char :=
  "The knowledge base is empty. No documents have been uploaded yet.".toList

/-- The literal returned when the query succeeds with zero matches. -/
def NO_RESULTS_MSG : List Char :=
  ("No relevant results found for your query. "
    ++ "Try rephrasing your question or upload more documents.").toList

/-- The message built when generating the query embedding raises. -/
def EMBED_ERROR_MSG_HEAD : List Char := "Error generating query embedding: ".toList

/-- The message built when `query_vectors` raises any other `ClientError`. -/
def QUERY_ERROR_MSG_HEAD : List Char := "Error searching knowledge base: ".toList

/-- `search_knowledge_base(query)`: embed the query (`embedOutcome` is the
outcome of `generate_embedding_vector`, whose failure detail is the
appended text), run `query_vectors` (`query`), and branch exactly as the
code does. -/
def search_knowledge_base (embedOutcome : Except (List Char) (List ℚ))
    (query : List ℚ → QueryOutcome) : SearchReply :=
  match embedOutcome with
  | .error e => .message (EMBED_ERROR_MSG_HEAD ++ e)
  | .ok qe =>
    match query qe with
    | .clientError err =>
      if err.code = "ResourceNotFoundException".toList then .message KB_EMPTY_MSG
      else .message (QUERY_ERROR_MSG_HEAD ++ err.code)
    | .ok vectors =>
      if vectors = [] then .message NO_RESULTS_MSG
      else .results ((vectors.enumFrom 1).map (fun p => formatMatch p.1 p.2))

/-- Claim C7: a `ResourceNotFoundException` from the similarity call yields
the distinct knowledge-base-empty message, a successful call with zero
matches yields the distinct no-relevant-results message, and neither
message is of either error-message form (nor are they each other). -/
theorem search_empty_not_error (embedOutcome : Except (List Char) (List ℚ))
    (query : List ℚ → QueryOutcome) (qe : List ℚ) (heo : embedOutcome = .ok qe) :
    ((∃ err : ClientError, query qe = .clientError err ∧
        err.code = "ResourceNotFoundException".toList) →
      search_knowledge_base embedOutcome query = .message KB_EMPTY_MSG) ∧
    (query qe = .ok [] →
      search_knowledge_base embedOutcome query = .message NO_RESULTS_MSG) ∧
    ¬ QUERY_ERROR_MSG_HEAD <+: KB_EMPTY_MSG ∧
    ¬ EMBED_ERROR_MSG_HEAD <+: KB_EMPTY_MSG ∧
    ¬ QUERY_ERROR_MSG_HEAD <+: NO_RESULTS_MSG ∧
    ¬ EMBED_ERROR_MSG_HEAD <+: NO_RESULTS_MSG ∧
    KB_EMPTY_MSG ≠ NO_RESULTS_MSG := by
  subst heo
  refine ⟨?_, ?_, by decide, by decide, by decide, by decide, by decide⟩
  · rintro ⟨err, hq, hcode⟩
    unfold search_knowledge_base
    dsimp only
    rw [hq]
    simp [hcode]
  · intro hq
    unfold search_knowledge_base
    dsimp only
    rw [hq]
    rfl

/-- Witness for C7 at a concrete input: an index-not-found error from the
similarity call. -/
theorem search_empty_not_error_witness :
    ((∃ err : ClientError,
        (fun _ : List ℚ => QueryOutcome.clientError
            { code := "ResourceNotFoundException".toList }) [1] = .clientError err ∧
        err.code = "ResourceNotFoundException".toList) →
      search_knowledge_base (Except.ok [1])
        (fun _ => QueryOutcome.clientError { code := "ResourceNotFoundException".toList })
        = .message KB_EMPTY_MSG) ∧
    ((fun _ : List ℚ => QueryOutcome.clientError
        { code := "ResourceNotFoundException".toList }) [1] = .ok [] →
      search_knowledge_base (Except.ok [1])
        (fun _ => QueryOutcome.clientError { code := "ResourceNotFoundException".toList })
        = .message NO_RESULTS_MSG) ∧
    ¬ QUERY_ERROR_MSG_HEAD <+: KB_EMPTY_MSG ∧
    ¬ EMBED_ERROR_MSG_HEAD <+: KB_EMPTY_MSG ∧
    ¬ QUERY_ERROR_MSG_HEAD <+: NO_RESULTS_MSG ∧
    ¬ EMBED_ERROR_MSG_HEAD <+: NO_RESULTS_MSG ∧
    KB_EMPTY_MSG ≠ NO_RESULTS_MSG :=
  search_empty_not_error (Except.ok [1])
    (fun _ => QueryOutcome.clientError { code := "ResourceNotFoundException".toList }) [1] rfl

lemma enumFrom_length {α : Type} : ∀ (l : List α) (n : Nat), (l.enumFrom n).length = l.length := by
  intro l
  induction l with
  | nil => intro n; rfl
  | cons a l ih => intro n; simp [List.enumFrom, ih]

lemma enumFrom_get {α : Type} :
    ∀ (l : List α) (n j : Nat) (hj : j < l.length) (hj2 : j < (l.enumFrom n).length),
      (l.enumFrom n).get ⟨j, hj2⟩ = (n + j, l.get ⟨j, hj⟩) := by
  intro l
  induction l with
  | nil => intro n j hj; exact absurd hj (by simp)
  | cons a l ih =>
    intro n j hj hj2
    cases j with
    | zero => simp [List.enumFrom]
    | succ j =>
      have h2 := ih (n + 1) j (by simpa using hj) (by simpa [enumFrom_length] using hj)
      have e1 : n + 1 + j = n + (j + 1) := by omega
      rw [e1] at h2
      simpa [List.enumFrom] using h2

lemma get_map_at {α β : Type} (f : α → β) :
    ∀ (l : List α) (j : Nat) (hj : j < l.length) (hj2 : j < (l.map f).length),
      (l.map f).get ⟨j, hj2⟩ = f (l.get ⟨j, hj⟩) := by
  intro l
  induction l with
  | nil => intro j hj; exact absurd hj (by simp)
  | cons a l ih =>
    intro j hj hj2
    cases j with
    | zero => rfl
    | succ j => exact ih j (by simpa using hj) (by simpa using hj)

/-- Claim C8: on a successful non-empty query, the reply is the matches
formatted in the order returned by the remote service (positions `1..n`,
one item per match, no re-sorting); each item's similarity is
`max(0, 1 - distance)` — a function of distance that is monotonically
decreasing, never negative, and at most 1 whenever the distance is
non-negative (as it is for the bounded cosine-distance metric the code
assumes) — and the tier is high iff `similarity ≥ 0.7`, medium iff
`0.5 ≤ similarity < 0.7`, and low iff `similarity < 0.5`. -/
theorem search_similarity_ranking (embedOutcome : Except (List Char) (List ℚ))
    (query : List ℚ → QueryOutcome) (qe : List ℚ) (vectors : List RawMatch)
    (heo : embedOutcome = .ok qe) (hq : query qe = .ok vectors) (hne : vectors ≠ []) :
    search_knowledge_base embedOutcome query =
      .results ((vectors.enumFrom 1).map (fun p => formatMatch p.1 p.2)) ∧
    ((vectors.enumFrom 1).map (fun p => formatMatch p.1 p.2)).length = vectors.length ∧
    (∀ j (hj : j < vectors.length)
        (hi : j < ((vectors.enumFrom 1).map (fun p => formatMatch p.1 p.2)).length),
      ((vectors.enumFrom 1).map (fun p => formatMatch p.1 p.2)).get ⟨j, hi⟩
        = formatMatch (1 + j) (vectors.get ⟨j, hj⟩)) ∧
    (∀ i m, (formatMatch i m).position = i ∧
      (formatMatch i m).similarity = similarityOf ((RawMatch.distance m).getD 0) ∧
      (formatMatch i m).quality = qualityOf ((formatMatch i m).similarity)) ∧
    (∀ d : ℚ, similarityOf d = max 0 (1 - d)) ∧
    (∀ d₁ d₂ : ℚ, d₁ ≤ d₂ → similarityOf d₂ ≤ similarityOf d₁) ∧
    (∀ d : ℚ, 0 ≤ similarityOf d) ∧
    (∀ d : ℚ, 0 ≤ d → similarityOf d ≤ 1) ∧
    (∀ s : ℚ, (qualityOf s = Quality.high ↔ 7/10 ≤ s) ∧
      (qualityOf s = Quality.medium ↔ 5/10 ≤ s ∧ s < 7/10) ∧
      (qualityOf s = Quality.low ↔ s < 5/10)) := by
  subst heo
  refine ⟨?_, by simp [enumFrom_length], ?_, ?_, fun d => rfl, ?_, ?_, ?_, ?_⟩
  · unfold search_knowledge_base
    dsimp only
    rw [hq]
    dsimp only
    rw [if_neg hne]
  · intro j hj hi
    rw [get_map_at _ _ j (by simpa [enumFrom_length] using hj) hi,
      enumFrom_get vectors 1 j hj (by simpa [enumFrom_length] using hj)]
  · intro i m
    exact ⟨rfl, rfl, rfl⟩
  · intro d₁ d₂ h
    unfold similarityOf
    exact max_le_max (le_refl 0) (by linarith)
  · intro d
    exact le_max_left _ _
  · intro d hd
    unfold similarityOf
    exact max_le (by norm_num) (by linarith)
  · intro s
    unfold qualityOf
    split_ifs with h1 h2 <;>
      refine ⟨?_, ?_, ?_⟩ <;> simp_all <;> linarith

/-- Concrete match for the C8 witness: cosine distance 1/4. -/
def c8Match : RawMatch :=
  { distance := some (1/4), md_chunk_text := some ['t'],
    md_document_filename := none, md_chunk_index := some 3 }

/-- Witness for C8 at a concrete input: a single returned match is formatted
at position 1. -/
theorem search_similarity_ranking_witness :
    search_knowledge_base (Except.ok [1]) (fun _ => QueryOutcome.ok [c8Match]) =
      SearchReply.results [formatMatch 1 c8Match] := by
  have h := (search_similarity_ranking (Except.ok [1]) (fun _ => QueryOutcome.ok [c8Match])
      [1] [c8Match] rfl rfl (by simp)).1
  simpa [List.enumFrom] using h

lemma sepPriority_ne_nil : ∀ sep ∈ sepPriority, sep ≠ [] := by decide

lemma rfindAux_occ {pat s : List Char} : ∀ {n i : Nat}, rfindAux pat s n = some i →
    pat <+: s.drop i := by
  intro n
  induction n with
  | zero =>
    intro i h
    unfold rfindAux at h
    split at h
    · rename_i hpre
      have h0 : 0 = i := Option.some_inj.mp h
      subst h0
      simpa using List.isPrefixOf_iff_prefix.mp hpre
    · exact absurd h (by simp)
  | succ n ih =>
    intro i h
    unfold rfindAux at h
    split at h
    · rename_i hpre
      have h0 : n + 1 = i := Option.some_inj.mp h
      subst h0
      exact List.isPrefixOf_iff_prefix.mp hpre
    · exact ih h

lemma rfindAux_max {pat s : List Char} : ∀ {n i : Nat}, rfindAux pat s n = some i →
    ∀ j, i < j → j ≤ n → ¬ pat <+: s.drop j := by
  intro n
  induction n with
  | zero =>
    intro i h j hij hj
    have := rfindAux_le h
    omega
  | succ n ih =>
    intro i h j hij hjn
    unfold rfindAux at h
    split at h
    · have h0 : n + 1 = i := Option.some_inj.mp h
      omega
    · rename_i hpre
      intro hocc
      by_cases hje : j = n + 1
      · subst hje
        exact hpre (List.isPrefixOf_iff_prefix.mpr hocc)
      · exact ih h j hij (by omega) hocc

lemma rfindAux_none {pat s : List Char} : ∀ {n : Nat}, rfindAux pat s n = none →
    ∀ j, j ≤ n → ¬ pat <+: s.drop j := by
  intro n
  induction n with
  | zero =>
    intro h j hj hocc
    unfold rfindAux at h
    split at h
    · exact absurd h (by simp)
    · rename_i hpre
      have hj0 : j = 0 := by omega
      subst hj0
      exact hpre (List.isPrefixOf_iff_prefix.mpr (by simpa using hocc))
  | succ n ih =>
    intro h j hj hocc
    unfold rfindAux at h
    split at h
    · exact absurd h (by simp)
    · rename_i hpre
      by_cases hje : j = n + 1
      · subst hje
        exact hpre (List.isPrefixOf_iff_prefix.mpr hocc)
      · exact ih h j (by omega) hocc

lemma occ_bound {pat s : List Char} {j : Nat} (hp : pat ≠ []) (h : pat <+: s.drop j) :
    j + pat.length ≤ s.length := by
  have hlen := h.length_le
  simp only [List.length_drop] at hlen
  have h1 : 1 ≤ pat.length := List.length_pos.mpr hp
  omega

lemma rfind_some_occ {s pat : List Char} {i : Nat} (hp : pat ≠ []) (h : rfind s pat = some i) :
    pat <+: s.drop i ∧ ∀ j, i < j → ¬ pat <+: s.drop j := by
  unfold rfind at h
  split at h
  · refine ⟨rfindAux_occ h, ?_⟩
    intro j hij
    by_cases hjn : j ≤ s.length - pat.length
    · exact rfindAux_max h j hij hjn
    · intro hocc
      have := occ_bound hp hocc
      omega
  · exact absurd h (by simp)

lemma rfind_none_occ {s pat : List Char} (hp : pat ≠ []) (h : rfind s pat = none) :
    ∀ j, ¬ pat <+: s.drop j := by
  unfold rfind at h
  split at h
  · intro j
    by_cases hjn : j ≤ s.length - pat.length
    · exact rfindAux_none h j hjn
    · intro hocc
      have := occ_bound hp hocc
      omega
  · rename_i hle
    intro j hocc
    have := occ_bound hp hocc
    omega

lemma occ_transfer (text pat : List Char) (s e idx : Nat) (hp : pat ≠ []) :
    pat <+: (searchTextOf text s e).drop idx ↔
      (pat <+: text.drop (searchStartOf s e + idx) ∧
        searchStartOf s e + idx + pat.length ≤ e) := by
  have hL : 1 ≤ pat.length := List.length_pos.mpr hp
  unfold searchTextOf
  rw [List.drop_take, List.drop_drop, List.prefix_take_iff]
  constructor
  · rintro ⟨h1, h2⟩
    exact ⟨h1, by omega⟩
  · rintro ⟨h1, h2⟩
    exact ⟨h1, by omega⟩

/-- A separator occurrence inside the break-search region of the window
`[s, e)`, as the spec words it: a position strictly after `start`, within
the last 200 characters of the window, with the whole separator fitting
before the window end. -/
def RegOcc (text : List Char) (s e : Nat) (sep : List Char) (p : Nat) : Prop :=
  s < p ∧ e ≤ p + 200 ∧ p + sep.length ≤ e ∧ sep <+: text.drop p

/-- The spec's description of the chosen break point (§4.1, transcribed for
the refinement claim C9): either some separator of the priority list occurs
in the search region, no higher-priority separator occurs there, and the
break sits immediately after the last occurrence of that separator; or no
separator occurs and the break is exactly `e`. -/
def breakChoiceSpec (text : List Char) (s e r : Nat) : Prop :=
  (∃ k, ∃ hk : k < sepPriority.length, ∃ q,
    (∀ j, ∀ hj : j < k, ∀ p,
      ¬ RegOcc text s e (sepPriority.get ⟨j, by omega⟩) p) ∧
    RegOcc text s e (sepPriority.get ⟨k, hk⟩) q ∧
    (∀ p, q < p → ¬ RegOcc text s e (sepPriority.get ⟨k, hk⟩) p) ∧
    r = q + (sepPriority.get ⟨k, hk⟩).length)
  ∨ ((∀ sep ∈ sepPriority, ∀ p, ¬ RegOcc text s e sep p) ∧ r = e)

lemma regOcc_iff (text sep : List Char) (s e p : Nat) :
    RegOcc text s e sep p ↔
      (searchStartOf s e ≤ p ∧ p + sep.length ≤ e ∧ sep <+: text.drop p) := by
  unfold RegOcc searchStartOf
  rw [max_le_iff]
  constructor
  · rintro ⟨h1, h2, h3, h4⟩
    exact ⟨⟨by omega, by omega⟩, h3, h4⟩
  · rintro ⟨⟨h1, h2⟩, h3, h4⟩
    exact ⟨by omega, by omega, h3, h4⟩

lemma rfind_some_regOcc (text sep : List Char) (s e idx : Nat) (hp : sep ≠ [])
    (h : rfind (searchTextOf text s e) sep = some idx) :
    RegOcc text s e sep (searchStartOf s e + idx) ∧
      ∀ p, searchStartOf s e + idx < p → ¬ RegOcc text s e sep p := by
  obtain ⟨hocc, hmax⟩ := rfind_some_occ hp h
  have habs := (occ_transfer text sep s e idx hp).mp hocc
  constructor
  · rw [regOcc_iff]
    exact ⟨by omega, habs.2, habs.1⟩
  · intro p hlt hro
    rw [regOcc_iff] at hro
    obtain ⟨hss, hfit, hpre⟩ := hro
    apply hmax (p - searchStartOf s e) (by omega)
    rw [occ_transfer text sep s e _ hp]
    have hpe : searchStartOf s e + (p - searchStartOf s e) = p := by omega
    rw [hpe]
    exact ⟨hpre, by omega⟩

lemma rfind_none_regOcc (text sep : List Char) (s e : Nat) (hp : sep ≠ [])
    (h : rfind (searchTextOf text s e) sep = none) :
    ∀ p, ¬ RegOcc text s e sep p := by
  intro p hro
  rw [regOcc_iff] at hro
  obtain ⟨hss, hfit, hpre⟩ := hro
  apply rfind_none_occ hp h (p - searchStartOf s e)
  rw [occ_transfer text sep s e _ hp]
  have hpe : searchStartOf s e + (p - searchStartOf s e) = p := by omega
  rw [hpe]
  exact ⟨hpre, by omega⟩

lemma findSepBreak_first {st : List Char} :
    ∀ (seps : List (List Char)),
      (∀ idx L, findSepBreak st seps = some (idx, L) →
        ∃ k, ∃ hk : k < seps.length,
          (seps.get ⟨k, hk⟩).length = L ∧ rfind st (seps.get ⟨k, hk⟩) = some idx ∧
          ∀ j, ∀ hj : j < k, rfind st (seps.get ⟨j, by omega⟩) = none) ∧
      (findSepBreak st seps = none → ∀ sep ∈ seps, rfind st sep = none) := by
  intro seps
  induction seps with
  | nil =>
    refine ⟨fun idx L h => absurd h (by simp [findSepBreak]), fun _ sep hmem => absurd hmem (by simp)⟩
  | cons sep rest ih =>
    constructor
    · intro idx L h
      unfold findSepBreak at h
      cases hr : rfind st sep with
      | some j =>
        rw [hr] at h
        have hinj := Option.some_inj.mp h
        have hj : j = idx := congrArg Prod.fst hinj
        have hL : sep.length = L := congrArg Prod.snd hinj
        exact ⟨0, by simp, hL, hj ▸ hr, fun j hj => by omega⟩
      | none =>
        rw [hr] at h
        obtain ⟨k, hk, hL, hrf, hprev⟩ := ih.1 idx L h
        refine ⟨k + 1, by simpa using hk, hL, hrf, ?_⟩
        intro j hj
        cases j with
        | zero => exact hr
        | succ j => exact hprev j (by omega)
    · intro h sep2 hmem
      unfold findSepBreak at h
      cases hr : rfind st sep with
      | some j => rw [hr] at h; exact absurd h (by simp)
      | none =>
        rw [hr] at h
        rcases List.mem_cons.mp hmem with hmem | hmem
        · exact hmem ▸ hr
        · exact ih.2 h sep2 hmem

/-- Claim C9: for every window `[s, s + chunkSize)` that does not reach the
end of the text, the break point `chunk_text` uses (computed by
`_find_break_point` on exactly that window, since
`min(s + chunkSize, len) = s + chunkSize` there) satisfies the spec's
break-choice rule `breakChoiceSpec`: it searches the last 200 characters of
the window at positions strictly after `s`, tries the separators in
priority order, places the break immediately after the last occurrence of
the first separator that occurs, and falls back to exactly
`s + chunkSize` when none occurs. -/
theorem find_break_point_follows_spec (text : List Char) (s chunk_size : Nat)
    (h1 : 1 ≤ chunk_size) (h2 : s + chunk_size < text.length) :
    breakChoiceSpec text s (s + chunk_size) (find_break_point text s (s + chunk_size)) := by
  unfold find_break_point
  split
  · rename_i idx L hfs
    obtain ⟨k, hk, hL, hrf, hprev⟩ := (findSepBreak_first sepPriority).1 idx L hfs
    have hne : sepPriority.get ⟨k, hk⟩ ≠ [] :=
      sepPriority_ne_nil _ (List.get_mem _ _ _)
    obtain ⟨hocc, hmax⟩ := rfind_some_regOcc text _ s (s + chunk_size) idx hne hrf
    left
    refine ⟨k, hk, searchStartOf s (s + chunk_size) + idx, ?_, hocc, hmax, ?_⟩
    · intro j hj p
      have hjne : sepPriority.get ⟨j, by omega⟩ ≠ [] :=
        sepPriority_ne_nil _ (List.get_mem _ _ _)
      exact rfind_none_regOcc text _ s (s + chunk_size) hjne (hprev j hj) p
    · rw [hL]
  · rename_i hfs
    right
    refine ⟨?_, rfl⟩
    intro sep hmem p
    exact rfind_none_regOcc text sep s (s + chunk_size)
      (sepPriority_ne_nil sep hmem) ((findSepBreak_first sepPriority).2 hfs sep hmem) p

/-- Witness for C9 at a concrete input: the text `"ab cd"` with a window of
size 4 starting at 0. -/
theorem find_break_point_follows_spec_witness :
    breakChoiceSpec "ab cd".toList 0 4 (find_break_point "ab cd".toList 0 4) :=
  find_break_point_follows_spec "ab cd".toList 0 4 (by decide) (by decide)

/-- Witness for C6 at a concrete input: one key, whose single batch fails,
so nothing is deleted and nothing is counted. -/
theorem delete_document_vectors_best_effort_witness :
    (batchesOf ((List.range 1).map (vkey ['d']))).flatten
        = (List.range 1).map (vkey ['d']) ∧
    ((List.range 1).map (vkey ['d'])).length = 1 ∧
    (∀ b ∈ batchesOf ((List.range 1).map (vkey ['d'])),
      b.length ≤ VECTORS_PER_BATCH) ∧
    (delete_document_vectors (fun _ => false) ['d'] 1 {vkey ['d'] 0}).2 =
      (((((batchesOf ((List.range 1).map (vkey ['d']))).enumFrom 0).filter
          (fun p => (fun _ : Nat => false) p.1)).map Prod.snd).map List.length).sum ∧
    (delete_document_vectors (fun _ => false) ['d'] 1 {vkey ['d'] 0}).1 =
      {vkey ['d'] 0} \ ((((batchesOf ((List.range 1).map (vkey ['d']))).enumFrom 0).filter
          (fun p => (fun _ : Nat => false) p.1)).map Prod.snd).flatten.toFinset ∧
    ∀ st₂ : Finset (List Char),
      (delete_document_vectors (fun _ => false) ['d'] 1 st₂).2 =
        (delete_document_vectors (fun _ => false) ['d'] 1 {vkey ['d'] 0}).2 :=
  delete_document_vectors_best_effort (fun _ => false) ['d'] 1 {vkey ['d'] 0}

/-- Witness for C10 at a concrete input: three chunk texts but only two
embeddings, so exactly two records are built and counted. -/
theorem store_document_vectors_zip_min_witness :
    (store_document_vectors ['d'] ['f'] [['a'], ['b'], ['c']] [0, 1] ∅).2
      = min ([['a'], ['b'], ['c']] : List (List Char)).length ([0, 1] : List Nat).length ∧
    (buildVectors ['d'] ['f'] [['a'], ['b'], ['c']] [0, 1]).length
      = min ([['a'], ['b'], ['c']] : List (List Char)).length ([0, 1] : List Nat).length ∧
    buildVectors ['d'] ['f'] [['a'], ['b'], ['c']] ([0, 1] : List Nat) =
      buildVectors ['d'] ['f']
        (([['a'], ['b'], ['c']] : List (List Char)).take
          (min ([['a'], ['b'], ['c']] : List (List Char)).length ([0, 1] : List Nat).length))
        (([0, 1] : List Nat).take
          (min ([['a'], ['b'], ['c']] : List (List Char)).length ([0, 1] : List Nat).length)) :=
  store_document_vectors_zip_min ['d'] ['f'] [['a'], ['b'], ['c']] [0, 1] ∅
